import Mathlib

/-!
# Verification of the violation fingerprint / similarity core

This development embeds the core logic of the `traffiiq_dash` repository
(`viola.py`, `violationFingerprint.py`, `traffiq_dashboard.py`):

* `create_fingerprint` — converts a monthly table of per-category violation
  counts into a table of per-category proportions of each month's total
  (`df[violation_cols].div(df[total], axis=0)` followed by
  `replace([inf, -inf], 0)` and `fillna(0)`), after first adding any missing
  category column to the caller's dataframe with `df[col] = 0`;
* the sklearn `cosine_similarity` matrix over the fingerprint rows;
* the `update_graphs` callback, which resolves a month index via pandas
  `.iloc`, and ranks all months by sorting the selected similarity row with
  pandas `DataFrame.sort_values('Similarity', ascending=False)` (default
  `kind='quicksort'`, i.e. numpy's introsort).

Numeric cells are modelled as `FVal`: an IEEE-754-style value with an exact
rational finite part, two infinities and a single NaN (the float64 cells of
the dataframe, with exact instead of rounded arithmetic, and without signed
zero, which is numerically indistinguishable from `0.0` here).
-/

/-- A dataframe cell: a finite (exact rational) value, `+inf`, `-inf`, or NaN.
Models the float64 values pandas stores, with exact rational arithmetic in
place of rounding and a single NaN. -/
inductive FVal where
  | fin (q : ℚ)
  | pinf
  | ninf
  | nan
  deriving DecidableEq, Repr

namespace FVal

/-- IEEE-754 division on `FVal` (as performed by `DataFrame.div`):
division by zero gives a signed infinity (or NaN for `0/0`), any NaN operand
gives NaN, an infinity divided by a finite value stays infinite, and a finite
value divided by an infinity is zero. -/
def fdiv : FVal → FVal → FVal
  | nan, _ => nan
  | _, nan => nan
  | fin a, fin b =>
      if b = 0 then (if 0 < a then pinf else if a < 0 then ninf else nan)
      else fin (a / b)
  | fin _, pinf => fin 0
  | fin _, ninf => fin 0
  | pinf, fin b => if b < 0 then ninf else pinf
  | ninf, fin b => if b < 0 then pinf else ninf
  | pinf, pinf => nan
  | pinf, ninf => nan
  | ninf, pinf => nan
  | ninf, ninf => nan

/-- `Series.replace([np.inf, -np.inf], 0)` on one cell. -/
def replaceInf : FVal → FVal
  | pinf => fin 0
  | ninf => fin 0
  | x => x

/-- `Series.fillna(0)` on one cell. -/
def fillna0 : FVal → FVal
  | nan => fin 0
  | x => x

/-- Multiplication by a positive finite constant `c` (IEEE-754 semantics for
`0 < c`): scales the finite part, preserves infinities and NaN. -/
def scaleF (c : ℚ) : FVal → FVal
  | fin q => fin (c * q)
  | pinf => pinf
  | ninf => ninf
  | nan => nan

/-- Whether a cell is a finite value. -/
def isFinite : FVal → Bool
  | fin _ => true
  | _ => false

end FVal

/-- A pandas DataFrame as used by the core: a list of column names and the
rows, each row holding one cell per column (positionally aligned with
`cols`). -/
structure DataFrame where
  cols : List String
  rows : List (List FVal)
  deriving DecidableEq, Repr

/-- `df[c]` for one row: the cell at column `c`'s position.  (`List.indexOf`
returns the length when the column is absent, in which case `getD` yields the
default NaN; the embedding guards column presence separately, as pandas
raises `KeyError` there.) -/
def getCell (cols : List String) (row : List FVal) (c : String) : FVal :=
  row.getD (cols.indexOf c) FVal.nan

/-- The fixed ten violation category columns of `create_fingerprint`
(`violation_cols` in `viola.py` lines 28–39). -/
def violation_cols : List String :=
  [ "lsr_lzy_d_lrdr_over_speed_radar",
    "mkhlft_qt_lshr_ldwy_y_passing_traffic_signal_violations",
    "mkhlft_lrshdt_walt_ltnbyh_guidlines_and_alarm_signals_violations",
    "mkhlft_llwht_lm_dny_metallic_plates_violations",
    "mkhlft_ltjwz_overtaking_violations",
    "mkhlft_tsjyl_w_dm_tjdyd_lstmr_registration_and_form_non_renewal_violations",
    "mkhlft_rkhs_lqyd_driving_licenses_violations",
    "mkhlft_lhrk_lmrwry_traffic_movement_violations",
    "mkhlft_qw_d_wltzmt_lwqwf_wlntzr_stand_and_wait_rules_and_obligations_violations",
    "khr_other" ]

/-- The total-violations column used as the normalization denominator. -/
def total_col : String := "mjmw_lmkhlft_lmrwry_total_traffic_violations"

/-- `missing_cols = [col for col in violation_cols if col not in df.columns]`
(viola.py line 42). -/
def missingCols (df : DataFrame) : List String :=
  violation_cols.filter (fun c => ¬ c ∈ df.cols)

/-- The column-synthesis step of `create_fingerprint` (viola.py lines 42–46):
`df[col] = 0` for each missing column, which appends each missing category
column, filled with zeros, to the caller's dataframe. -/
def addMissing (df : DataFrame) : DataFrame :=
  { cols := df.cols ++ missingCols df,
    rows := df.rows.map (fun r => r ++ (missingCols df).map (fun _ => FVal.fin 0)) }

/-- One fingerprint cell (viola.py lines 49–55): `count / total`, then
infinities replaced by `0`, then NaN filled with `0`. -/
def fpCell (total x : FVal) : FVal :=
  FVal.fillna0 (FVal.replaceInf (FVal.fdiv x total))

/-- One fingerprint row: `df[violation_cols].div(df[total], axis=0)` followed
by the `replace`/`fillna` cleanup, for a single row of the dataframe. -/
def fpRow (cols : List String) (row : List FVal) : List FVal :=
  violation_cols.map (fun c => fpCell (getCell cols row total_col) (getCell cols row c))

/-- `create_fingerprint(df)` (viola.py lines 26–57, identical in
`violationFingerprint.py` and `traffiq_dashboard.py`).  Returns the
fingerprint table (`none` models the `KeyError` pandas raises when the total
column is absent) together with the final state of the caller's dataframe,
which the Python function mutates when category columns are missing. -/
def create_fingerprint (df : DataFrame) : Option DataFrame × DataFrame :=
  let df2 := addMissing df
  if total_col ∈ df2.cols then
    (some { cols := violation_cols, rows := df2.rows.map (fpRow df2.cols) }, df2)
  else
    (none, df2)

/-- `fpCell` on finite cells with a nonzero total is plain division. -/
theorem fpCell_fin_fin (t a : ℚ) (ht : t ≠ 0) :
    fpCell (FVal.fin t) (FVal.fin a) = FVal.fin (a / t) := by
  simp [fpCell, FVal.fdiv, FVal.replaceInf, FVal.fillna0, ht]

/-- A zero total makes every fingerprint cell zero: the division yields an
infinity or NaN, which the `replace`/`fillna` cleanup turns into `0`. -/
theorem fpCell_total_zero (x : FVal) : fpCell (FVal.fin 0) x = FVal.fin 0 := by
  cases x with
  | fin a =>
      by_cases h : 0 < a
      · simp [fpCell, FVal.fdiv, FVal.replaceInf, FVal.fillna0, h]
      · by_cases h' : a < 0 <;>
          simp [fpCell, FVal.fdiv, FVal.replaceInf, FVal.fillna0, h, h']
  | pinf => simp [fpCell, FVal.fdiv, FVal.replaceInf, FVal.fillna0]
  | ninf => simp [fpCell, FVal.fdiv, FVal.replaceInf, FVal.fillna0]
  | nan => simp [fpCell, FVal.fdiv, FVal.replaceInf, FVal.fillna0]

/-- A missing (NaN) total makes every fingerprint cell zero. -/
theorem fpCell_total_nan (x : FVal) : fpCell FVal.nan x = FVal.fin 0 := by
  cases x <;> simp [fpCell, FVal.fdiv, FVal.replaceInf, FVal.fillna0]

/-- Every fingerprint cell is finite: the `replace([inf,-inf],0)` and
`fillna(0)` steps remove every non-finite value. -/
theorem fpCell_isFinite (t x : FVal) : (fpCell t x).isFinite = true := by
  rcases h : FVal.fdiv x t with q | _ | _ | _ <;>
    simp [fpCell, h, FVal.replaceInf, FVal.fillna0, FVal.isFinite]

/-- The dataframe returned in the second component is always the
(possibly column-extended) input dataframe. -/
theorem create_fingerprint_snd (df : DataFrame) :
    (create_fingerprint df).2 = addMissing df := by
  rw [create_fingerprint]
  split <;> rfl

/-- When the total column is present, the fingerprint table exists and its
rows are the cleaned division of each (column-extended) row. -/
theorem create_fingerprint_fst (df : DataFrame) (h : total_col ∈ (addMissing df).cols) :
    (create_fingerprint df).1 =
      some { cols := violation_cols,
             rows := (addMissing df).rows.map (fpRow (addMissing df).cols) } := by
  rw [create_fingerprint, if_pos h]

/-- The total column is never one of the ten category columns, so
`addMissing` neither adds nor needs it. -/
theorem total_col_mem_addMissing (df : DataFrame) :
    total_col ∈ (addMissing df).cols ↔ total_col ∈ df.cols := by
  constructor
  · intro hm
    rcases List.mem_append.1 hm with h1 | h2
    · exact h1
    · exact absurd (List.mem_filter.1 h2).1 (by decide)
  · exact fun h1 => List.mem_append.2 (Or.inl h1)

/-- claim C1 counterexample input: a one-row table carrying only the total
column, so all ten category columns are missing. -/
def dfC1 : DataFrame := ⟨[total_col], [[FVal.fin 5]]⟩

/-- C1 counterexample: `create_fingerprint` is not a pure function of its
input table — on a table missing the category columns, the caller's table
after the call (second component) differs from the input: the ten category
columns have been added to it. -/
theorem c1_not_pure_cex : (create_fingerprint dfC1).2 ≠ dfC1 := by decide

/-- C1 (amended): `create_fingerprint` leaves the caller's table unchanged
when all ten category columns are already present; when some are missing, the
only mutation is that each missing category column is appended, filled with
zeros (existing columns and cell values are unchanged). -/
theorem c1_mutation_amended :
    (∀ df : DataFrame, (∀ c ∈ violation_cols, c ∈ df.cols) →
      (create_fingerprint df).2 = df) ∧
    (∀ df : DataFrame,
      (create_fingerprint df).2.cols = df.cols ++ missingCols df ∧
      (create_fingerprint df).2.rows =
        df.rows.map (fun r => r ++ (missingCols df).map (fun _ => FVal.fin 0))) := by
  constructor
  · intro df h
    have hf : missingCols df = [] := by
      rw [missingCols, List.filter_eq_nil_iff]
      intro a ha
      simpa using h a ha
    rcases df with ⟨cols, rows⟩
    simp [create_fingerprint_snd, addMissing, hf]
  · intro df
    exact ⟨by rw [create_fingerprint_snd]; rfl, by rw [create_fingerprint_snd]; rfl⟩

/-- C1 witness: on a table already holding all ten category columns, the
table is returned unchanged. -/
theorem c1_mutation_witness :
    (create_fingerprint ⟨violation_cols, [[FVal.fin 1]]⟩).2 =
      ⟨violation_cols, [[FVal.fin 1]]⟩ :=
  c1_mutation_amended.1 _ (by decide)

/-- claim C2 counterexample input: one record with a negative total (−5) and
a positive speed count (10). -/
def dfC2 : DataFrame :=
  ⟨[total_col, "lsr_lzy_d_lrdr_over_speed_radar"], [[FVal.fin (-5), FVal.fin 10]]⟩

/-- C2 counterexample: a record with a negative `total_count` does not get an
all-zero fingerprint — the quotient `10 / (−5) = −2` is finite, so neither
the infinity-replacement nor the NaN-fill turns it into `0`. -/
theorem c2_negative_total_cex :
    (create_fingerprint dfC2).1.map DataFrame.rows =
      some [[FVal.fin (-2), FVal.fin 0, FVal.fin 0, FVal.fin 0, FVal.fin 0,
             FVal.fin 0, FVal.fin 0, FVal.fin 0, FVal.fin 0, FVal.fin 0]] ∧
    FVal.fin (-2) ≠ FVal.fin 0 := by
  constructor
  · have h : addMissing dfC2 =
        ⟨[total_col] ++ violation_cols,
          [[FVal.fin (-5), FVal.fin 10] ++ List.replicate 9 (FVal.fin 0)]⟩ := by
      decide
    rw [create_fingerprint, h]
    rw [if_pos (by decide : total_col ∈
      (⟨[total_col] ++ violation_cols,
        [[FVal.fin (-5), FVal.fin 10] ++ List.replicate 9 (FVal.fin 0)]⟩ : DataFrame).cols)]
    simp only [Option.map_some, List.map_cons, List.map_nil]
    refine congrArg some ?_
    rw [show fpRow ([total_col] ++ violation_cols)
          ([FVal.fin (-5), FVal.fin 10] ++ List.replicate 9 (FVal.fin 0)) =
        List.map (fpCell (FVal.fin (-5)))
          [FVal.fin 10, FVal.fin 0, FVal.fin 0, FVal.fin 0, FVal.fin 0,
           FVal.fin 0, FVal.fin 0, FVal.fin 0, FVal.fin 0, FVal.fin 0] from rfl]
    simp only [List.map_cons, List.map_nil,
      fpCell_fin_fin _ _ (by norm_num : (-5:ℚ) ≠ 0)]
    norm_num
  · intro h
    have : (-2 : ℚ) = 0 := FVal.fin.inj h
    norm_num at this

/-- C2 (amended): a record whose total is zero, or missing (NaN), yields an
all-zero fingerprint row; the first conjunct ties the fingerprint rows of
`create_fingerprint` to `fpRow`. -/
theorem c2_zero_total_amended :
    (∀ df fp, (create_fingerprint df).1 = some fp →
      fp.rows = (addMissing df).rows.map (fpRow (addMissing df).cols)) ∧
    (∀ cols row,
      (getCell cols row total_col = FVal.fin 0 ∨ getCell cols row total_col = FVal.nan) →
      ∀ x ∈ fpRow cols row, x = FVal.fin 0) := by
  constructor
  · intro df fp h
    rw [create_fingerprint] at h
    split at h
    · cases h; rfl
    · cases h
  · intro cols row h x hx
    obtain ⟨c, _, rfl⟩ := List.mem_map.1 hx
    rcases h with h | h <;> rw [h]
    · exact fpCell_total_zero _
    · exact fpCell_total_nan _

/-- C2 witness: the record `{total: 0}` (all categories missing) gets the
all-zero fingerprint row. -/
theorem c2_zero_total_witness :
    (fpRow [total_col] [FVal.fin 0]).getD 0 FVal.nan = FVal.fin 0 :=
  c2_zero_total_amended.2 [total_col] [FVal.fin 0] (Or.inl (by decide)) _ (by decide)

/-- C3 (confirmed): whenever the total column is present (the data model's
`total_count` field), `create_fingerprint` succeeds — even when category
columns are missing — and every fingerprint row has exactly the ten fixed
categories (as the output columns, one cell per category) with every cell
finite. -/
theorem c3_full_category_set (df : DataFrame) (h : total_col ∈ df.cols) :
    ∃ fp, (create_fingerprint df).1 = some fp ∧
      fp.cols = violation_cols ∧
      ∀ row ∈ fp.rows, row.length = violation_cols.length ∧
        ∀ x ∈ row, x.isFinite = true := by
  have h' : total_col ∈ (addMissing df).cols := (total_col_mem_addMissing df).2 h
  refine ⟨_, create_fingerprint_fst df h', rfl, ?_⟩
  intro row hrow
  obtain ⟨r0, _, rfl⟩ := List.mem_map.1 hrow
  refine ⟨by simp [fpRow], ?_⟩
  intro x hx
  obtain ⟨c, _, rfl⟩ := List.mem_map.1 hx
  exact fpCell_isFinite _ _

/-- C3 witness: on the table with every category column missing, the
fingerprint columns are exactly the fixed ten categories. -/
theorem c3_full_category_set_witness :
    (create_fingerprint dfC1).1.map DataFrame.cols = some violation_cols := by
  obtain ⟨fp, h1, h2, _⟩ := c3_full_category_set dfC1 (by decide)
  rw [h1]
  simp [h2]

/-- claim C7 counterexample input: total 5 smaller than the speed count 10
(the total is its own source field, not the sum of the counts). -/
def dfC7 : DataFrame :=
  ⟨[total_col, "lsr_lzy_d_lrdr_over_speed_radar"], [[FVal.fin 5, FVal.fin 10]]⟩

/-- C7 counterexample: with positive total 5 and non-negative count 10 the
fingerprint value is `10/5 = 2`, which lies outside `[0, 1]`. -/
theorem c7_range_cex :
    (create_fingerprint dfC7).1.map DataFrame.rows =
      some [[FVal.fin 2, FVal.fin 0, FVal.fin 0, FVal.fin 0, FVal.fin 0,
             FVal.fin 0, FVal.fin 0, FVal.fin 0, FVal.fin 0, FVal.fin 0]] ∧
    ¬ (2 : ℚ) ≤ 1 := by
  constructor
  · have h : addMissing dfC7 =
        ⟨[total_col] ++ violation_cols,
          [[FVal.fin 5, FVal.fin 10] ++ List.replicate 9 (FVal.fin 0)]⟩ := by
      decide
    rw [create_fingerprint, h]
    rw [if_pos (by decide : total_col ∈
      (⟨[total_col] ++ violation_cols,
        [[FVal.fin 5, FVal.fin 10] ++ List.replicate 9 (FVal.fin 0)]⟩ : DataFrame).cols)]
    simp only [Option.map_some, List.map_cons, List.map_nil]
    refine congrArg some ?_
    rw [show fpRow ([total_col] ++ violation_cols)
          ([FVal.fin 5, FVal.fin 10] ++ List.replicate 9 (FVal.fin 0)) =
        List.map (fpCell (FVal.fin 5))
          [FVal.fin 10, FVal.fin 0, FVal.fin 0, FVal.fin 0, FVal.fin 0,
           FVal.fin 0, FVal.fin 0, FVal.fin 0, FVal.fin 0, FVal.fin 0] from rfl]
    simp only [List.map_cons, List.map_nil,
      fpCell_fin_fin _ _ (by norm_num : (5:ℚ) ≠ 0)]
    norm_num
  · norm_num

/-- C7 (amended): when additionally each category count is at most the total
(as when the total really is the sum of the counts), each fingerprint value
is the proportion `a / t` and lies in `[0, 1]`. -/
theorem c7_range_amended (t a : ℚ) (ht : 0 < t) (h0 : 0 ≤ a) (hat : a ≤ t) :
    fpCell (FVal.fin t) (FVal.fin a) = FVal.fin (a / t) ∧
      0 ≤ a / t ∧ a / t ≤ 1 :=
  ⟨fpCell_fin_fin t a (ne_of_gt ht), div_nonneg h0 (le_of_lt ht), (div_le_one ht).2 hat⟩

/-- C7 witness: count 1 with total 2 gives the in-range proportion 1/2. -/
theorem c7_range_witness :
    fpCell (FVal.fin 2) (FVal.fin 1) = FVal.fin (1 / 2) ∧
      0 ≤ (1 : ℚ) / 2 ∧ (1 : ℚ) / 2 ≤ 1 :=
  c7_range_amended 2 1 (by norm_num) (by norm_num) (by norm_num)

/-! ## Similarity engine

`similarity_matrix = cosine_similarity(fingerprints)` (viola.py line 93).
sklearn's `cosine_similarity(X)` L2-normalizes each row and multiplies:
`normalize` divides each row by its Euclidean norm after replacing zero
norms by `1` (`norms[norms == 0.0] = 1.0` in sklearn's `normalize`), so an
all-zero row stays zero and its similarity to anything — itself included —
is exactly `0.0`.  The fingerprint cells are always finite
(`fpCell_isFinite`), so the rows enter as exact rationals; the norm lives
in `ℝ`. -/

/-- Coordinatewise dot product of two fingerprint rows. -/
def dotQ (a b : List ℚ) : ℚ := (List.zipWith (· * ·) a b).sum

/-- The float value of a (always finite) fingerprint cell; non-finite cells
cannot occur in fingerprint output (`fpCell_isFinite`). -/
def FVal.toRat : FVal → ℚ
  | FVal.fin q => q
  | _ => 0

/-- The fingerprint table as the numeric matrix fed to `cosine_similarity`. -/
def ratRows (df : DataFrame) : List (List ℚ) := df.rows.map (List.map FVal.toRat)

/-- The sklearn row norm: the Euclidean norm of the row, with zero norms
replaced by `1` (the `norms[norms == 0.0] = 1.0` step of `normalize`). -/
noncomputable def sknorm (a : List ℚ) : ℝ :=
  if Real.sqrt ((dotQ a a : ℚ) : ℝ) = 0 then 1 else Real.sqrt ((dotQ a a : ℚ) : ℝ)

/-- Cosine similarity of two rows as computed by sklearn:
`dot(a, b) / (‖a‖ · ‖b‖)` with the zero-norm-to-1 convention. -/
noncomputable def cosSim (a b : List ℚ) : ℝ :=
  ((dotQ a b : ℚ) : ℝ) / (sknorm a * sknorm b)

/-- Entry `(i, j)` of `similarity_matrix = cosine_similarity(fingerprints)`. -/
noncomputable def simMatrix (fps : List (List ℚ)) (i j : ℕ) : ℝ :=
  cosSim (fps.getD i []) (fps.getD j [])

theorem dotQ_comm (a b : List ℚ) : dotQ a b = dotQ b a := by
  induction a generalizing b with
  | nil => cases b <;> simp [dotQ]
  | cons x l ih =>
      cases b with
      | nil => simp [dotQ]
      | cons y m => simp [dotQ, mul_comm x y]; exact ih m

theorem dotQ_self_nonneg (a : List ℚ) : 0 ≤ dotQ a a := by
  induction a with
  | nil => simp [dotQ]
  | cons x l ih =>
      have : dotQ (x :: l) (x :: l) = x * x + dotQ l l := by simp [dotQ]
      rw [this]
      exact add_nonneg (mul_self_nonneg x) ih

theorem dotQ_self_eq_zero_iff (a : List ℚ) : dotQ a a = 0 ↔ ∀ x ∈ a, x = 0 := by
  induction a with
  | nil => simp [dotQ]
  | cons x l ih =>
      have hs : dotQ (x :: l) (x :: l) = x * x + dotQ l l := by simp [dotQ]
      rw [hs]
      constructor
      · intro h
        have h2 := (add_eq_zero_iff_of_nonneg (mul_self_nonneg x) (dotQ_self_nonneg l)).1 h
        intro y hy
        rcases List.mem_cons.1 hy with rfl | hy'
        · exact mul_self_eq_zero.1 h2.1
        · exact (ih.1 h2.2) y hy'
      · intro h
        have hx : x = 0 := h x (List.mem_cons_self x l)
        have hl : dotQ l l = 0 := ih.2 fun y hy => h y (List.mem_cons_of_mem x hy)
        rw [hx, hl, mul_zero, add_zero]

theorem dotQ_zero_left (a b : List ℚ) (h : ∀ x ∈ a, x = 0) : dotQ a b = 0 := by
  induction a generalizing b with
  | nil => cases b <;> simp [dotQ]
  | cons x l ih =>
      cases b with
      | nil => simp [dotQ]
      | cons y m =>
          have hx : x = 0 := h x (List.mem_cons_self x l)
          have : dotQ (x :: l) (y :: m) = x * y + dotQ l m := by simp [dotQ]
          rw [this, hx, zero_mul, zero_add]
          exact ih m fun z hz => h z (List.mem_cons_of_mem x hz)

/-- Cosine self-similarity of a row with nonzero norm is exactly 1. -/
theorem cosSim_self (a : List ℚ) (h : dotQ a a ≠ 0) : cosSim a a = 1 := by
  have hpos : 0 < dotQ a a := lt_of_le_of_ne (dotQ_self_nonneg a) (Ne.symm h)
  have hposR : (0 : ℝ) < ((dotQ a a : ℚ) : ℝ) := by exact_mod_cast hpos
  have hsq : Real.sqrt ((dotQ a a : ℚ) : ℝ) ≠ 0 :=
    ne_of_gt (Real.sqrt_pos.2 hposR)
  rw [cosSim, sknorm, if_neg hsq, Real.mul_self_sqrt (le_of_lt hposR)]
  exact div_self (ne_of_gt hposR)

/-- Cosine similarity with an all-zero row on the left is exactly 0. -/
theorem cosSim_zero_left (a b : List ℚ) (h : ∀ x ∈ a, x = 0) : cosSim a b = 0 := by
  rw [cosSim, dotQ_zero_left a b h]
  simp

theorem cosSim_comm (a b : List ℚ) : cosSim a b = cosSim b a := by
  rw [cosSim, cosSim, dotQ_comm, mul_comm]

/-- C9 (confirmed): the similarity matrix is symmetric. -/
theorem c9_symmetric (fps : List (List ℚ)) (i j : ℕ) :
    simMatrix fps i j = simMatrix fps j i := by
  rw [simMatrix, simMatrix, cosSim_comm]

/-- C6 (confirmed): the diagonal entry is 1 for a period with a not-all-zero
fingerprint, and exactly 0 for an all-zero fingerprint; moreover an all-zero
fingerprint has similarity exactly 0 to every period. -/
theorem c6_diagonal (fps : List (List ℚ)) (i : ℕ) :
    ((¬ ∀ x ∈ fps.getD i [], x = 0) → simMatrix fps i i = 1) ∧
    ((∀ x ∈ fps.getD i [], x = 0) →
      simMatrix fps i i = 0 ∧ ∀ j, simMatrix fps i j = 0) := by
  constructor
  · intro h
    have hd : dotQ (fps.getD i []) (fps.getD i []) ≠ 0 := by
      intro h0
      exact h ((dotQ_self_eq_zero_iff _).1 h0)
    exact cosSim_self _ hd
  · intro h
    exact ⟨cosSim_zero_left _ _ h, fun j => cosSim_zero_left _ _ h⟩

/-- C6 witness: with fingerprints `[1]` (nonzero) and `[0]` (all-zero), the
diagonal is 1 and 0 respectively, and the zero row is similar to nothing. -/
theorem c6_diagonal_witness :
    simMatrix [[(1:ℚ)], [(0:ℚ)]] 0 0 = 1 ∧
    simMatrix [[(1:ℚ)], [(0:ℚ)]] 1 1 = 0 ∧
    simMatrix [[(1:ℚ)], [(0:ℚ)]] 1 0 = 0 :=
  ⟨(c6_diagonal [[(1:ℚ)], [(0:ℚ)]] 0).1 (by intro h; exact one_ne_zero (h 1 (by decide))),
   ((c6_diagonal [[(1:ℚ)], [(0:ℚ)]] 1).2 (by decide)).1,
   ((c6_diagonal [[(1:ℚ)], [(0:ℚ)]] 1).2 (by decide)).2 0⟩

/-! ## Scale invariance (C8) -/

/-- The input table with every cell scaled by the positive constant `c`
(scaling all of a record's category counts and its total by `c`). -/
def scaleDF (c : ℚ) (df : DataFrame) : DataFrame :=
  { cols := df.cols, rows := df.rows.map (List.map (FVal.scaleF c)) }

/-- Cell lookup commutes with scaling a row (the default NaN is a fixed
point of `scaleF`). -/
theorem getCell_scale (cols : List String) (row : List FVal) (c : String) (cst : ℚ) :
    getCell cols (row.map (FVal.scaleF cst)) c = FVal.scaleF cst (getCell cols row c) := by
  rw [getCell, getCell]
  by_cases h : cols.indexOf c < row.length
  · rw [List.getD_eq_getElem _ _ (by simpa using h), List.getElem_map,
      List.getD_eq_getElem _ _ h]
  · push_neg at h
    rw [List.getD_eq_default _ _ (by simpa using h), List.getD_eq_default _ _ h]
    rfl

/-- Looking up a column of the original table is unaffected by appending
further columns and cells, provided the column is present and its value is
not the out-of-range default. -/
theorem getCell_append (cols extra : List String) (row more : List FVal) (c : String)
    (hc : c ∈ cols) (hne : getCell cols row c ≠ FVal.nan) :
    getCell (cols ++ extra) (row ++ more) c = getCell cols row c := by
  rw [getCell, getCell, List.indexOf_append_of_mem hc]
  have hlt : cols.indexOf c < row.length := by
    by_contra hge
    push_neg at hge
    rw [getCell, List.getD_eq_default _ _ hge] at hne
    exact hne rfl
  exact List.getD_append _ _ _ _ hlt

/-- One fingerprint cell is invariant under scaling both the count cell and
the (positive) total by the same positive constant. -/
theorem fpCell_scale (c t : ℚ) (hc : 0 < c) (ht : 0 < t) (x : FVal) :
    fpCell (FVal.scaleF c (FVal.fin t)) (FVal.scaleF c x) = fpCell (FVal.fin t) x := by
  have hct : 0 < c * t := mul_pos hc ht
  cases x with
  | fin a =>
      show fpCell (FVal.fin (c * t)) (FVal.fin (c * a)) = fpCell (FVal.fin t) (FVal.fin a)
      rw [fpCell_fin_fin _ _ (ne_of_gt hct), fpCell_fin_fin _ _ (ne_of_gt ht),
        mul_div_mul_left a t (ne_of_gt hc)]
  | pinf =>
      show fpCell (FVal.fin (c * t)) FVal.pinf = fpCell (FVal.fin t) FVal.pinf
      simp [fpCell, FVal.fdiv, FVal.replaceInf, FVal.fillna0,
        not_lt.2 (le_of_lt hct), not_lt.2 (le_of_lt ht)]
  | ninf =>
      show fpCell (FVal.fin (c * t)) FVal.ninf = fpCell (FVal.fin t) FVal.ninf
      simp [fpCell, FVal.fdiv, FVal.replaceInf, FVal.fillna0,
        not_lt.2 (le_of_lt hct), not_lt.2 (le_of_lt ht)]
  | nan =>
      show fpCell (FVal.fin (c * t)) FVal.nan = fpCell (FVal.fin t) FVal.nan
      simp [fpCell, FVal.fdiv, FVal.replaceInf, FVal.fillna0]

/-- A whole fingerprint row is invariant under scaling the row by a positive
constant, when the row's total is finite and positive. -/
theorem fpRow_scale (cols : List String) (row : List FVal) (c t : ℚ)
    (hc : 0 < c) (ht : 0 < t)
    (htot : getCell cols row total_col = FVal.fin t) :
    fpRow cols (row.map (FVal.scaleF c)) = fpRow cols row := by
  rw [fpRow, fpRow]
  refine List.map_congr_left ?_
  intro cc _
  rw [getCell_scale, getCell_scale, htot, fpCell_scale c t hc ht]

/-- Scaling commutes with the missing-column synthesis (the appended zero
columns are fixed points of scaling). -/
theorem addMissing_scaleDF (c : ℚ) (df : DataFrame) :
    addMissing (scaleDF c df) = scaleDF c (addMissing df) := by
  simp only [addMissing, scaleDF, missingCols, List.map_map]
  refine congrArg (DataFrame.mk _) ?_
  refine List.map_congr_left ?_
  intro r _
  simp [Function.comp, List.map_append, List.map_map, FVal.scaleF]

/-- The spec's concrete scenario table: Period A with counts
`{speed: 80, signal: 20, others: 0}` and total 100; Period B with counts
`{speed: 8, signal: 2, others: 0}` and total 10. -/
def dfAB : DataFrame :=
  ⟨[total_col, "lsr_lzy_d_lrdr_over_speed_radar",
    "mkhlft_qt_lshr_ldwy_y_passing_traffic_signal_violations"],
   [[FVal.fin 100, FVal.fin 80, FVal.fin 20],
    [FVal.fin 10, FVal.fin 8, FVal.fin 2]]⟩

/-- The common fingerprint row of Periods A and B. -/
def rowAB : List FVal :=
  [FVal.fin (4/5), FVal.fin (1/5), FVal.fin 0, FVal.fin 0, FVal.fin 0,
   FVal.fin 0, FVal.fin 0, FVal.fin 0, FVal.fin 0, FVal.fin 0]

/-- C8 (confirmed): scaling all cells of a table (counts and totals) by a
positive constant leaves the fingerprint table unchanged, provided each
row's total is finite and positive; and in the spec's concrete scenario,
Periods A and B get the identical fingerprint `{speed: 0.8, signal: 0.2,
others: 0}` and cosine similarity exactly 1. -/
theorem c8_scale_invariance :
    (∀ (df : DataFrame) (c : ℚ), 0 < c →
      (∀ row ∈ df.rows, ∃ t : ℚ, 0 < t ∧ getCell df.cols row total_col = FVal.fin t) →
      (create_fingerprint (scaleDF c df)).1 = (create_fingerprint df).1) ∧
    ((create_fingerprint dfAB).1.map DataFrame.rows = some [rowAB, rowAB] ∧
      simMatrix [rowAB.map FVal.toRat, rowAB.map FVal.toRat] 0 1 = 1) := by
  constructor
  · intro df c hc htot
    by_cases hmem : total_col ∈ df.cols
    · have hmem2 : total_col ∈ (addMissing df).cols :=
        (total_col_mem_addMissing df).2 hmem
      have hmemS : total_col ∈ (addMissing (scaleDF c df)).cols := by
        rw [addMissing_scaleDF]; exact hmem2
      rw [create_fingerprint_fst _ hmemS, create_fingerprint_fst _ hmem2]
      refine congrArg some ?_
      refine congrArg (DataFrame.mk violation_cols) ?_
      rw [addMissing_scaleDF]
      show ((addMissing df).rows.map (List.map (FVal.scaleF c))).map
          (fpRow (addMissing df).cols) = (addMissing df).rows.map (fpRow (addMissing df).cols)
      rw [List.map_map]
      refine List.map_congr_left ?_
      intro r hr
      rw [addMissing] at hr
      obtain ⟨r0, hr0, rfl⟩ := List.mem_map.1 hr
      obtain ⟨t, ht, htot0⟩ := htot r0 hr0
      have hne : getCell df.cols r0 total_col ≠ FVal.nan := by
        rw [htot0]; intro h; cases h
      have htot2 : getCell (addMissing df).cols
          (r0 ++ (missingCols df).map (fun _ => FVal.fin 0)) total_col = FVal.fin t := by
        show getCell (df.cols ++ missingCols df) _ total_col = FVal.fin t
        rw [getCell_append _ _ _ _ _ hmem hne, htot0]
      exact fpRow_scale _ _ c t hc ht htot2
    · have h2 : ¬ total_col ∈ (addMissing df).cols :=
        fun h => hmem ((total_col_mem_addMissing df).1 h)
      have h2S : ¬ total_col ∈ (addMissing (scaleDF c df)).cols := by
        rw [addMissing_scaleDF]; exact h2
      rw [create_fingerprint, if_neg h2S, create_fingerprint, if_neg h2]
  · constructor
    · have h : addMissing dfAB =
          ⟨[total_col] ++ violation_cols,
            [[FVal.fin 100, FVal.fin 80, FVal.fin 20] ++ List.replicate 8 (FVal.fin 0),
             [FVal.fin 10, FVal.fin 8, FVal.fin 2] ++ List.replicate 8 (FVal.fin 0)]⟩ := by
        decide
      rw [create_fingerprint, h]
      rw [if_pos (by decide : total_col ∈
        (⟨[total_col] ++ violation_cols,
          [[FVal.fin 100, FVal.fin 80, FVal.fin 20] ++ List.replicate 8 (FVal.fin 0),
           [FVal.fin 10, FVal.fin 8, FVal.fin 2] ++ List.replicate 8 (FVal.fin 0)]⟩ :
            DataFrame).cols)]
      simp only [Option.map_some, List.map_cons, List.map_nil]
      refine congrArg some ?_
      rw [show fpRow ([total_col] ++ violation_cols)
            ([FVal.fin 100, FVal.fin 80, FVal.fin 20] ++ List.replicate 8 (FVal.fin 0)) =
          List.map (fpCell (FVal.fin 100))
            [FVal.fin 80, FVal.fin 20, FVal.fin 0, FVal.fin 0, FVal.fin 0,
             FVal.fin 0, FVal.fin 0, FVal.fin 0, FVal.fin 0, FVal.fin 0] from rfl]
      rw [show fpRow ([total_col] ++ violation_cols)
            ([FVal.fin 10, FVal.fin 8, FVal.fin 2] ++ List.replicate 8 (FVal.fin 0)) =
          List.map (fpCell (FVal.fin 10))
            [FVal.fin 8, FVal.fin 2, FVal.fin 0, FVal.fin 0, FVal.fin 0,
             FVal.fin 0, FVal.fin 0, FVal.fin 0, FVal.fin 0, FVal.fin 0] from rfl]
      simp only [List.map_cons, List.map_nil,
        fpCell_fin_fin _ _ (by norm_num : (100:ℚ) ≠ 0),
        fpCell_fin_fin _ _ (by norm_num : (10:ℚ) ≠ 0), rowAB]
      norm_num
    · have hd : dotQ (rowAB.map FVal.toRat) (rowAB.map FVal.toRat) ≠ 0 := by
        simp [rowAB, dotQ, FVal.toRat]
        norm_num
      show cosSim (rowAB.map FVal.toRat) (rowAB.map FVal.toRat) = 1
      exact cosSim_self _ hd

/-- C8 witness: doubling every cell of the concrete scenario table leaves
its fingerprint table unchanged. -/
theorem c8_scale_invariance_witness :
    (create_fingerprint (scaleDF 2 dfAB)).1 = (create_fingerprint dfAB).1 := by
  refine c8_scale_invariance.1 dfAB 2 (by norm_num) ?_
  intro row hr
  rcases List.mem_cons.1 hr with rfl | hr2
  · exact ⟨100, by norm_num, by decide⟩
  · rcases List.mem_cons.1 hr2 with rfl | hr3
    · exact ⟨10, by norm_num, by decide⟩
    · cases hr3

/-! ## Ranking: pandas `sort_values(ascending=False)` over numpy argsort

`update_graphs` ranks months with
`similarity_df.sort_values('Similarity', ascending=False)` (viola.py line
261) and sorts the Pareto fingerprint the same way (line 228).  pandas
`sort_values` calls `nargsort`, which (for a descending sort of a
NaN-free column) reverses the values and positions, runs
`values.argsort(kind='quicksort')`, indexes the reversed positions by the
argsort result, and reverses the final indexer.  numpy's
`argsort(kind='quicksort')` is introsort (`aquicksort` in
`npysort/quicksort.c.src`): median-of-3 quicksort partitions down to
segments of at most `SMALL_QUICKSORT = 15 + 1` elements which are
insertion-sorted, with a heapsort fallback once the recursion depth
exceeds `2·msb(n)`.  The embedding below mirrors that routine on an index
list, taking the comparison `v[i] < v[j]` as a Boolean function `lt` of
the two indices (lookups stay in range in the C code; out-of-range `getD`
reads default to index 0). -/

/-- Insert index `a` into the ascending-sorted list `acc`, placing it before
the first `b` with `v[a] < v[b]` — i.e. after any equal elements, exactly
where numpy's insertion sort (which shifts while `vp < v[*pk]`) puts it. -/
def insertAfterB (lt : Nat → Nat → Bool) (a : Nat) : List Nat → List Nat
  | [] => [a]
  | b :: l => if lt a b then a :: b :: l else b :: insertAfterB lt a l

/-- numpy's (stable) insertion sort of an index segment, processed left to
right. -/
def npyInsertion (lt : Nat → Nat → Bool) (l : List Nat) : List Nat :=
  l.foldl (fun acc a => insertAfterB lt a acc) []

/-- `tosort[p]` (reads stay in range in the C code). -/
def gpos (ts : List Nat) (p : Nat) : Nat := ts.getD p 0

/-- `INTP_SWAP(tosort[i], tosort[j])`. -/
def swapPos (ts : List Nat) (i j : Nat) : List Nat :=
  (ts.set i (gpos ts j)).set j (gpos ts i)

/-- `do ++pi; while (v[*pi] < vp)` — called with `pi` already incremented;
`im` is the index whose value is the pivot `vp`. -/
def scanUp (lt : Nat → Nat → Bool) (ts : List Nat) (im : Nat) : Nat → Nat → Nat
  | 0, pi => pi
  | f + 1, pi => if lt (gpos ts pi) im then scanUp lt ts im f (pi + 1) else pi

/-- `do --pj; while (vp < v[*pj])` — called with `pj` already decremented. -/
def scanDown (lt : Nat → Nat → Bool) (ts : List Nat) (im : Nat) : Nat → Nat → Nat
  | 0, pj => pj
  | f + 1, pj => if lt im (gpos ts pj) then scanDown lt ts im f (pj - 1) else pj

/-- The pointer-crossing loop of the quicksort partition: scan up, scan
down, swap and repeat until the pointers cross; returns the final array and
`pi`. -/
def partLoop (lt : Nat → Nat → Bool) (im : Nat) :
    Nat → List Nat → Nat → Nat → List Nat × Nat
  | 0, ts, pi, _ => (ts, pi)
  | f + 1, ts, pi, pj =>
      let pi' := scanUp lt ts im (ts.length + 1) (pi + 1)
      let pj' := scanDown lt ts im (ts.length + 1) (pj - 1)
      if pj' ≤ pi' then (ts, pi')
      else partLoop lt im f (swapPos ts pi' pj') pi' pj'

/-- One `aquicksort` partition step on the segment `[pl, pr]`: median-of-3
pivot selection, pivot parked at `pr − 1`, pointer-crossing loop, pivot
restored at `pi`. -/
def partStep (lt : Nat → Nat → Bool) (ts : List Nat) (pl pr : Nat) : List Nat × Nat :=
  let pm := pl + (pr - pl) / 2
  let ts := if lt (gpos ts pm) (gpos ts pl) then swapPos ts pm pl else ts
  let ts := if lt (gpos ts pr) (gpos ts pm) then swapPos ts pr pm else ts
  let ts := if lt (gpos ts pm) (gpos ts pl) then swapPos ts pm pl else ts
  let im := gpos ts pm
  let ts := swapPos ts pm (pr - 1)
  let r := partLoop lt im (ts.length + 1) ts pl (pr - 1)
  (swapPos r.1 r.2 (pr - 1), r.2)

/-- `a[k]` of `aheapsort`'s one-based view of the segment starting at `pl`. -/
def hsGet (ts : List Nat) (pl k : Nat) : Nat := ts.getD (pl + k - 1) 0

/-- `a[k] = x` of the one-based heap view. -/
def hsSet (ts : List Nat) (pl k x : Nat) : List Nat := ts.set (pl + k - 1) x

/-- The sift-down loop shared by both `aheapsort` phases: walk the larger
child down from `i` while it beats `tmp`, then store `tmp`. -/
def siftLoop (lt : Nat → Nat → Bool) (pl : Nat) :
    Nat → List Nat → Nat → Nat → Nat → Nat → List Nat
  | 0, ts, _, tmp, i, _ => hsSet ts pl i tmp
  | f + 1, ts, n, tmp, i, j =>
      if j ≤ n then
        let j := if j < n && lt (hsGet ts pl j) (hsGet ts pl (j + 1)) then j + 1 else j
        if lt tmp (hsGet ts pl j) then
          siftLoop lt pl f (hsSet ts pl i (hsGet ts pl j)) n tmp j (j + j)
        else hsSet ts pl i tmp
      else hsSet ts pl i tmp

/-- `aheapsort` build phase: sift roots `l = n/2, …, 1`. -/
def hsBuild (lt : Nat → Nat → Bool) (pl n : Nat) : Nat → List Nat → List Nat
  | 0, ts => ts
  | l + 1, ts =>
      let tmp := hsGet ts pl (l + 1)
      let ts := siftLoop lt pl (n + 2) ts n tmp (l + 1) ((l + 1) * 2)
      hsBuild lt pl n l ts

/-- `aheapsort` extract phase: move the max to the end and re-sift. -/
def hsExtract (lt : Nat → Nat → Bool) (pl : Nat) :
    Nat → List Nat → Nat → List Nat
  | 0, ts, _ => ts
  | f + 1, ts, n =>
      if 1 < n then
        let tmp := hsGet ts pl n
        let ts := hsSet ts pl n (hsGet ts pl 1)
        let n := n - 1
        let ts := siftLoop lt pl (n + 2) ts n tmp 1 2
        hsExtract lt pl f ts n
      else ts

/-- numpy `aheapsort` on the segment `[pl, pr]` (the introsort depth-limit
fallback). -/
def heapsortSeg (lt : Nat → Nat → Bool) (ts : List Nat) (pl pr : Nat) : List Nat :=
  let n := pr - pl + 1
  hsExtract lt pl (n + 2) (hsBuild lt pl n (n / 2) ts) n

/-- Insertion-sort the segment `[pl, pr]` of the index list in place. -/
def insSortSeg (lt : Nat → Nat → Bool) (ts : List Nat) (pl pr : Nat) : List Nat :=
  ts.take pl ++ npyInsertion lt ((ts.drop pl).take (pr + 1 - pl)) ++ ts.drop (pr + 1)

/-- The outer `aquicksort` loop: partition while the segment is longer than
`SMALL_QUICKSORT = 15`, recursing on the smaller side and stacking the
larger; heapsort once `depth_limit` underflows; insertion-sort short
segments; pop the stack until empty.  `fuel` bounds the iteration count
(the C loop terminates on its own; the fuel is never exhausted on the
inputs reasoned about). -/
def aqLoop (lt : Nat → Nat → Bool) :
    Nat → List Nat → Nat → Nat → List (Nat × Nat) → Int → List Nat
  | 0, ts, _, _, _, _ => ts
  | f + 1, ts, pl, pr, stack, depth =>
      if 15 < pr - pl then
        if depth < 0 then
          let ts := heapsortSeg lt ts pl pr
          match stack with
          | [] => ts
          | (pl', pr') :: rest => aqLoop lt f ts pl' pr' rest (depth - 1)
        else
          let r := partStep lt ts pl pr
          if r.2 - pl < pr - r.2 then
            aqLoop lt f r.1 pl (r.2 - 1) ((r.2 + 1, pr) :: stack) (depth - 1)
          else
            aqLoop lt f r.1 (r.2 + 1) pr ((pl, r.2 - 1) :: stack) (depth - 1)
      else
        let ts := insSortSeg lt ts pl pr
        match stack with
        | [] => ts
        | (pl', pr') :: rest => aqLoop lt f ts pl' pr' rest depth

/-- numpy `argsort(kind='quicksort')` of `n` values compared through `lt`:
introsort of the index list `[0, …, n−1]` with depth limit `2·msb(n)`. -/
def aqSort (lt : Nat → Nat → Bool) (n : Nat) : List Nat :=
  aqLoop lt (2 * n + 16) (List.range n) 0 (n - 1) [] (2 * Nat.log2 n)

/-- The value of the reversed column at position `p` (the
`non_nans = items[::-1]` step of pandas `nargsort`; positions stay in range
in the library code). -/
def vRev {α : Type} (vals : List α) (dflt : α) (p : Nat) : α :=
  vals.getD (vals.length - 1 - p) dflt

/-- The comparison numpy's argsort performs on the reversed column. -/
def ltRev {α : Type} [LinearOrder α] (vals : List α) (dflt : α) : Nat → Nat → Bool :=
  fun p q => decide (vRev vals dflt p < vRev vals dflt q)

/-- pandas `nargsort(items, kind='quicksort', ascending=False)` for a
NaN-free column: reverse the values and positions, argsort the reversed
values, index the reversed positions, reverse the result. -/
def nargsortDescG {α : Type} [LinearOrder α] (vals : List α) (dflt : α) : List Nat :=
  ((aqSort (ltRev vals dflt) vals.length).map
    (fun p => ((List.range vals.length).reverse).getD p 0)).reverse

/-- The month order produced by sorting the similarity column descending. -/
noncomputable def nargsortDesc (vals : List ℝ) : List Nat := nargsortDescG vals 0

/-- The category order produced by sorting a fingerprint Series descending
(`sort_values(ascending=False)` on the Pareto data). -/
def nargsortDescQ (vals : List ℚ) : List Nat := nargsortDescG vals 0

/-- The similarity column built by `update_graphs`:
`'Similarity': similarities * 100` where `similarities =
similarity_matrix[selected_idx]`. -/
noncomputable def simRowVals (fps : List (List ℚ)) (i : Nat) : List ℝ :=
  (List.range fps.length).map (fun j => simMatrix fps i j * 100)

/-- `rank(i)`: the month order of the similarity results list — all months
sorted by descending similarity to month `i`. -/
noncomputable def rankIdx (fps : List (List ℚ)) (i : Nat) : List Nat :=
  nargsortDesc (simRowVals fps i)

/-- For at most `SMALL_QUICKSORT + 1 = 16` elements the introsort never
partitions: it is exactly one insertion sort of the whole index range. -/
theorem aqSort_le16 (lt : Nat → Nat → Bool) (n : Nat) (h : n ≤ 16) :
    aqSort lt n = npyInsertion lt (List.range n) := by
  have hfuel : 2 * n + 16 = (2 * n + 15) + 1 := rfl
  rw [aqSort, hfuel, aqLoop]
  rw [if_neg (by omega : ¬ 15 < n - 1 - 0)]
  show insSortSeg lt (List.range n) 0 (n - 1) = npyInsertion lt (List.range n)
  cases n with
  | zero => rfl
  | succ m =>
      rw [insSortSeg, List.take_zero, List.drop_zero]
      have h1 : m + 1 - 1 + 1 - 0 = m + 1 := rfl
      rw [h1]
      rw [show List.take (m + 1) (List.range (m + 1)) = List.range (m + 1) from
        List.take_of_length_le (by simp)]
      rw [show List.drop (m + 1 - 1 + 1) (List.range (m + 1)) = ([] : List Nat) from
        List.drop_eq_nil_of_le (by simp)]
      simp

theorem mem_insertAfterB {lt : Nat → Nat → Bool} {a x : Nat} {l : List Nat} :
    x ∈ insertAfterB lt a l ↔ x = a ∨ x ∈ l := by
  induction l with
  | nil => simp [insertAfterB]
  | cons b m ih =>
      rw [insertAfterB]
      split
      · simp [List.mem_cons]
      · simp only [List.mem_cons, ih]
        tauto

theorem perm_insertAfterB (lt : Nat → Nat → Bool) (a : Nat) (l : List Nat) :
    List.Perm (insertAfterB lt a l) (a :: l) := by
  induction l with
  | nil => exact List.Perm.refl _
  | cons b m ih =>
      rw [insertAfterB]
      split
      · exact List.Perm.refl _
      · exact (List.Perm.cons b ih).trans (List.Perm.swap a b m)

theorem foldl_insertAfterB_perm (lt : Nat → Nat → Bool) (l : List Nat) :
    ∀ acc : List Nat,
      List.Perm (l.foldl (fun acc a => insertAfterB lt a acc) acc) (l ++ acc) := by
  induction l with
  | nil => intro acc; simp
  | cons a m ih =>
      intro acc
      refine (ih (insertAfterB lt a acc)).trans ?_
      refine (List.Perm.append_left m (perm_insertAfterB lt a acc)).trans ?_
      exact List.perm_middle

/-- numpy's insertion argsort permutes the index list. -/
theorem perm_npyInsertion (lt : Nat → Nat → Bool) (l : List Nat) :
    List.Perm (npyInsertion lt l) l := by
  have h := foldl_insertAfterB_perm lt l []
  simpa [npyInsertion] using h

/-- Inserting a later index into a sorted prefix keeps the list sorted by
value with ties in original (index) order: the insertion point is after all
equal values, and the new index is larger than every index in the prefix. -/
theorem insertAfterB_pairwise {α : Type} [LinearOrder α] (v : ℕ → α) (a : ℕ)
    (acc : List ℕ)
    (hacc : acc.Pairwise (fun p q => v p < v q ∨ (v p = v q ∧ p < q)))
    (hlt : ∀ b ∈ acc, b < a) :
    (insertAfterB (fun p q => decide (v p < v q)) a acc).Pairwise
      (fun p q => v p < v q ∨ (v p = v q ∧ p < q)) := by
  induction acc with
  | nil => simp [insertAfterB]
  | cons b m ih =>
      rw [insertAfterB]
      rcases List.pairwise_cons.1 hacc with ⟨hb, hm⟩
      by_cases h : v a < v b
      · rw [if_pos (by simpa using h)]
        refine List.pairwise_cons.2 ⟨?_, hacc⟩
        intro y hy
        rcases List.mem_cons.1 hy with rfl | hy'
        · exact Or.inl h
        · rcases hb y hy' with h2 | ⟨h2, _⟩
          · exact Or.inl (lt_trans h h2)
          · exact Or.inl (h2 ▸ h)
      · rw [if_neg (by simpa using h)]
        refine List.pairwise_cons.2
          ⟨?_, ih hm (fun b' hb' => hlt b' (List.mem_cons_of_mem b hb'))⟩
        intro y hy
        rcases mem_insertAfterB.1 hy with rfl | hy'
        · rcases lt_or_eq_of_le (not_lt.1 h) with h2 | h2
          · exact Or.inl h2
          · exact Or.inr ⟨h2, hlt b (List.mem_cons_self b m)⟩
        · exact hb y hy'

theorem foldl_insertAfterB_pairwise {α : Type} [LinearOrder α] (v : ℕ → α)
    (l : List ℕ) :
    ∀ acc : List ℕ, l.Pairwise (· < ·) →
      acc.Pairwise (fun p q => v p < v q ∨ (v p = v q ∧ p < q)) →
      (∀ b ∈ acc, ∀ a ∈ l, b < a) →
      (l.foldl (fun acc a => insertAfterB (fun p q => decide (v p < v q)) a acc)
          acc).Pairwise
        (fun p q => v p < v q ∨ (v p = v q ∧ p < q)) := by
  induction l with
  | nil => intro acc _ hacc _; simpa using hacc
  | cons a m ih =>
      intro acc hl hacc hcross
      rcases List.pairwise_cons.1 hl with ⟨ham, hm⟩
      refine ih _ hm
        (insertAfterB_pairwise v a acc hacc
          (fun b hb => hcross b hb a (List.mem_cons_self a m))) ?_
      intro b hb a' ha'
      rcases mem_insertAfterB.1 hb with rfl | hb'
      · exact ham a' ha'
      · exact hcross b hb' a' (List.mem_cons_of_mem a ha')

/-- The insertion argsort of `[0, …, n−1]` is sorted ascending by value with
ties in ascending index order (stability). -/
theorem npyInsertion_pairwise {α : Type} [LinearOrder α] (v : ℕ → α) (n : ℕ) :
    (npyInsertion (fun p q => decide (v p < v q)) (List.range n)).Pairwise
      (fun p q => v p < v q ∨ (v p = v q ∧ p < q)) :=
  foldl_insertAfterB_pairwise v (List.range n) [] (List.pairwise_lt_range n)
    (by simp) (by simp)

/-- The reversed position array `np.arange(n)[::-1]` read at `p < n`. -/
theorem getD_reverse_range (n p : Nat) (hp : p < n) :
    ((List.range n).reverse).getD p 0 = n - 1 - p := by
  rw [List.getD_eq_getElem _ _ (by simpa using hp)]
  rw [List.getElem_reverse]
  simp

/-- Mapping the reversed positions over the ascending positions yields the
descending positions. -/
theorem map_getD_reverse_range (n : Nat) :
    (List.range n).map (fun p => ((List.range n).reverse).getD p 0) =
      (List.range n).reverse := by
  apply List.ext_getElem
  · simp
  · intro i h1 h2
    have hi : i < n := by simpa using h1
    simp only [List.getElem_map, List.getElem_range]
    rw [getD_reverse_range n i hi, List.getElem_reverse]
    simp

/-- For at most 16 rows, the descending sort returns every position exactly
once. -/
theorem nargsortDescG_perm {α : Type} [LinearOrder α] (vals : List α) (dflt : α)
    (h : vals.length ≤ 16) :
    List.Perm (nargsortDescG vals dflt) (List.range vals.length) := by
  rw [nargsortDescG, aqSort_le16 _ _ h]
  have hA : List.Perm (npyInsertion (ltRev vals dflt) (List.range vals.length))
      (List.range vals.length) := perm_npyInsertion _ _
  refine (List.reverse_perm _).trans ?_
  refine (hA.map _).trans ?_
  rw [map_getD_reverse_range]
  exact List.reverse_perm _

/-- For at most 16 rows, the descending sort is ordered by strictly
descending value with ties in ascending position order: the underlying
argsort degenerates to the stable insertion sort, and pandas' double
reversal turns (stable ascending) into (descending, ties ascending). -/
theorem nargsortDescG_pairwise {α : Type} [LinearOrder α] (vals : List α) (dflt : α)
    (h : vals.length ≤ 16) :
    (nargsortDescG vals dflt).Pairwise (fun x y =>
      vals.getD y dflt < vals.getD x dflt ∨
      (vals.getD x dflt = vals.getD y dflt ∧ x < y)) := by
  rw [nargsortDescG, aqSort_le16 _ _ h]
  have hA : List.Perm (npyInsertion (ltRev vals dflt) (List.range vals.length))
      (List.range vals.length) := perm_npyInsertion _ _
  have hmem : ∀ p ∈ npyInsertion (ltRev vals dflt) (List.range vals.length),
      p < vals.length := fun p hp => List.mem_range.1 (hA.mem_iff.1 hp)
  have hpw := npyInsertion_pairwise (vRev vals dflt) vals.length
  rw [List.pairwise_reverse, List.pairwise_map]
  refine List.Pairwise.imp_of_mem ?_ hpw
  intro p q hp hq hS
  have hpn := hmem p hp
  have hqn := hmem q hq
  rw [getD_reverse_range _ p hpn, getD_reverse_range _ q hqn]
  have hvp : vRev vals dflt p = vals.getD (vals.length - 1 - p) dflt := rfl
  have hvq : vRev vals dflt q = vals.getD (vals.length - 1 - q) dflt := rfl
  rcases hS with h1 | ⟨h1, h2⟩
  · exact Or.inl (by rw [← hvp, ← hvq]; exact h1)
  · refine Or.inr ⟨by rw [← hvp, ← hvq]; exact h1.symm, by omega⟩

/-- C4 (amended): for datasets of at most 16 periods — where numpy's
introsort is a single stable insertion sort — `rank(i)` returns every period
exactly once, ordered by descending similarity with ties broken by ascending
period order.  (For 17 or more periods the unstable quicksort regime can
permute ties: see the counterexample.) -/
theorem c4_rank_sorted_amended (fps : List (List ℚ)) (i : Nat)
    (h : fps.length ≤ 16) :
    List.Perm (rankIdx fps i) (List.range fps.length) ∧
    (rankIdx fps i).Pairwise (fun x y =>
      simMatrix fps i y < simMatrix fps i x ∨
      (simMatrix fps i x = simMatrix fps i y ∧ x < y)) := by
  have hlen : (simRowVals fps i).length = fps.length := by simp [simRowVals]
  have hperm := nargsortDescG_perm (simRowVals fps i) (0:ℝ) (by rw [hlen]; exact h)
  have hval : ∀ x, x < fps.length →
      (simRowVals fps i).getD x 0 = simMatrix fps i x * 100 := by
    intro x hx
    rw [simRowVals, List.getD_eq_getElem _ _ (by simpa using hx)]
    simp
  constructor
  · rw [rankIdx, nargsortDesc]
    rw [hlen] at hperm
    exact hperm
  · have hpw := nargsortDescG_pairwise (simRowVals fps i) (0:ℝ) (by rw [hlen]; exact h)
    have hmem : ∀ p ∈ nargsortDescG (simRowVals fps i) (0:ℝ), p < fps.length :=
      fun p hp => by
        have := List.mem_range.1 (hperm.mem_iff.1 hp)
        omega
    rw [rankIdx, nargsortDesc]
    refine List.Pairwise.imp_of_mem ?_ hpw
    intro p q hp hq hS
    have hpn := hmem p hp
    have hqn := hmem q hq
    rw [hval p hpn, hval q hqn] at hS
    rcases hS with h1 | ⟨h1, h2⟩
    · exact Or.inl ((mul_lt_mul_right (by norm_num : (0:ℝ) < 100)).1 h1)
    · exact Or.inr ⟨mul_right_cancel₀ (by norm_num : (100:ℝ) ≠ 0) h1, h2⟩

/-- C4 witness: a two-period dataset with distinct fingerprints. -/
theorem c4_rank_sorted_witness :
    List.Perm (rankIdx [[(1:ℚ)], [(0:ℚ)]] 0) (List.range 2) ∧
    (rankIdx [[(1:ℚ)], [(0:ℚ)]] 0).Pairwise (fun x y =>
      simMatrix [[(1:ℚ)], [(0:ℚ)]] 0 y < simMatrix [[(1:ℚ)], [(0:ℚ)]] 0 x ∨
      (simMatrix [[(1:ℚ)], [(0:ℚ)]] 0 x = simMatrix [[(1:ℚ)], [(0:ℚ)]] 0 y ∧ x < y)) :=
  c4_rank_sorted_amended [[(1:ℚ)], [(0:ℚ)]] 0 (by norm_num)

/-- A nonzero fingerprint (all signal in the speed category). -/
def fpNZ : List ℚ := [1, 0, 0, 0, 0, 0, 0, 0, 0, 0]

/-- Every similarity to period 0 is exactly 1 when all 17 fingerprints are
the same nonzero vector. -/
theorem simMatrix_replicate17 (j : Nat) (hj : j < 17) :
    simMatrix (List.replicate 17 fpNZ) 0 j = 1 := by
  have hget : ∀ k, k < 17 → (List.replicate 17 fpNZ).getD k [] = fpNZ := by
    intro k hk
    rw [List.getD_eq_getElem _ _ (by simpa using hk), List.getElem_replicate]
  rw [simMatrix, hget 0 (by norm_num), hget j hj]
  refine cosSim_self fpNZ ?_
  simp [fpNZ, dotQ]

/-- The similarity column of period 0 is seventeen copies of `100`. -/
theorem simRowVals_replicate17 :
    simRowVals (List.replicate 17 fpNZ) 0 = List.replicate 17 (100 : ℝ) := by
  apply List.ext_getElem
  · simp [simRowVals]
  · intro k h1 h2
    have hk : k < 17 := by simpa [simRowVals] using h1
    have : (simRowVals (List.replicate 17 fpNZ) 0).getD k 0 = (100:ℝ) := by
      rw [simRowVals, List.getD_eq_getElem _ _ (by simpa using hk)]
      simp only [List.getElem_map, List.getElem_range]
      rw [simMatrix_replicate17 k hk]
      norm_num
    rw [← List.getD_eq_getElem _ (0:ℝ) h1, this, List.getElem_replicate]

/-- On an all-equal column the argsort comparison is constantly false. -/
theorem ltRev_replicate17 :
    ltRev (List.replicate 17 (100 : ℝ)) 0 = fun _ _ => false := by
  funext p q
  have hv : ∀ r, vRev (List.replicate 17 (100 : ℝ)) 0 r = (100 : ℝ) := by
    intro r
    rw [vRev]
    have hlen : (List.replicate 17 (100 : ℝ)).length = 17 := by simp
    rw [hlen]
    rw [List.getD_eq_getElem _ _ (by simp; omega), List.getElem_replicate]
  rw [ltRev]
  show decide (vRev (List.replicate 17 (100:ℝ)) 0 p < vRev (List.replicate 17 (100:ℝ)) 0 q) = false
  rw [hv p, hv q]
  exact decide_eq_false (lt_irrefl _)

/-- C4 counterexample: with 17 periods all having the identical nonzero
fingerprint — every pairwise similarity equal — the displayed order is not
ascending chronological: numpy's quicksort partition step scrambles the tied
indices (period 15 is listed before period 14, among others), so the
tie-break-by-ascending-period property fails for n ≥ 17. -/
theorem c4_tie_order_cex :
    rankIdx (List.replicate 17 fpNZ) 0 =
      [0, 9, 15, 14, 13, 12, 11, 10, 8, 1, 7, 6, 5, 4, 3, 2, 16] ∧
    ¬ (rankIdx (List.replicate 17 fpNZ) 0).Pairwise (fun x y =>
        simMatrix (List.replicate 17 fpNZ) 0 y < simMatrix (List.replicate 17 fpNZ) 0 x ∨
        (simMatrix (List.replicate 17 fpNZ) 0 x = simMatrix (List.replicate 17 fpNZ) 0 y ∧
          x < y)) := by
  have hmain : rankIdx (List.replicate 17 fpNZ) 0 =
      [0, 9, 15, 14, 13, 12, 11, 10, 8, 1, 7, 6, 5, 4, 3, 2, 16] := by
    rw [rankIdx, nargsortDesc, simRowVals_replicate17, nargsortDescG, ltRev_replicate17]
    rw [show (List.replicate 17 (100:ℝ)).length = 17 from by simp]
    decide
  refine ⟨hmain, ?_⟩
  intro hpw
  rw [hmain] at hpw
  have h2 := (List.pairwise_cons.1 hpw).2
  have h3 := (List.pairwise_cons.1 h2).2
  have h4 := (List.pairwise_cons.1 h3).1 14 (List.mem_cons_self _ _)
  rw [simMatrix_replicate17 14 (by norm_num), simMatrix_replicate17 15 (by norm_num)] at h4
  rcases h4 with h5 | ⟨_, h6⟩
  · exact lt_irrefl _ h5
  · omega

/-! ## The month-selection callback (`update_graphs`) -/

/-- pandas `.iloc[i]` positional resolution for a frame of `n` rows: Python
semantics, where a negative index counts from the end (`.iloc[-1]` is the
last row) and anything outside `[-n, n)` raises
`IndexError: single positional indexer is out-of-bounds`. -/
def ilocIdx (n : Nat) (i : Int) : Except String Nat :=
  if 0 ≤ i ∧ i < (n : Int) then Except.ok i.toNat
  else if -(n : Int) ≤ i ∧ i < 0 then Except.ok (i + n).toNat
  else Except.error "IndexError: single positional indexer is out-of-bounds"

/-- The Pareto chart's category order:
`selected_fingerprint.sort_values(ascending=False)` (viola.py line 228),
the same pandas descending sort applied to the ten fingerprint values. -/
def paretoOrder (fp : List ℚ) : List Nat := nargsortDescQ fp

/-- The data behind `update_graphs(selected_idx)` (viola.py lines 220–277):
`None` is replaced by 0, the index is resolved by `.iloc`, and the two
outputs are the Pareto category order of the selected fingerprint and the
ranked month order of the similarity results (an uncaught `IndexError`
propagates out of the callback). -/
noncomputable def update_graphs (fps : List (List ℚ)) (idx : Option Int) :
    Except String (List Nat × List Nat) := do
  let i := match idx with
    | none => 0
    | some v => v
  let k ← ilocIdx fps.length i
  pure (paretoOrder (fps.getD k []), rankIdx fps k)

/-- C10 (confirmed): a `None` month selection is treated as index 0 — the
callback returns the same Pareto chart data and the same ranked similarity
results as for index 0. -/
theorem c10_none_is_zero (fps : List (List ℚ)) :
    update_graphs fps none = update_graphs fps (some 0) := rfl

/-- C5 counterexample: the in-range-by-wraparound negative index `-1` is not
rejected: `.iloc[-1]` selects the last month and the callback returns its
Pareto data and ranking rather than surfacing an `IndexError`. -/
theorem c5_negative_index_cex :
    update_graphs [[(1:ℚ)], [(0:ℚ)]] (some (-1)) =
      Except.ok (paretoOrder [(0:ℚ)], rankIdx [[(1:ℚ)], [(0:ℚ)]] 1) ∧
    ∀ e : String, update_graphs [[(1:ℚ)], [(0:ℚ)]] (some (-1)) ≠ Except.error e := by
  constructor
  · rfl
  · intro e h
    rw [show update_graphs [[(1:ℚ)], [(0:ℚ)]] (some (-1)) =
        Except.ok (paretoOrder [(0:ℚ)], rankIdx [[(1:ℚ)], [(0:ℚ)]] 1) from rfl] at h
    cases h

/-- C5 (amended): only indices outside `[-n, n)` make the callback fail with
the surfaced `IndexError` (never silently absorbed, no ranking returned);
a negative index in `[-n, 0)` instead wraps around and returns the ranking
of period `n + i`. -/
theorem c5_invalid_index_amended :
    (∀ (fps : List (List ℚ)) (i : Int),
      ((fps.length : Int) ≤ i ∨ i < -(fps.length : Int)) →
      update_graphs fps (some i) =
        Except.error "IndexError: single positional indexer is out-of-bounds") ∧
    (∀ (fps : List (List ℚ)) (i : Int),
      -(fps.length : Int) ≤ i → i < 0 →
      update_graphs fps (some i) = update_graphs fps (some (i + fps.length))) := by
  constructor
  · intro fps i h
    rw [update_graphs]
    rw [show ilocIdx fps.length i =
        Except.error "IndexError: single positional indexer is out-of-bounds" by
      rw [ilocIdx, if_neg (by omega), if_neg (by omega)]]
    rfl
  · intro fps i h1 h2
    rw [update_graphs, update_graphs]
    rw [show ilocIdx fps.length i = Except.ok (i + fps.length).toNat by
      rw [ilocIdx, if_neg (by omega), if_pos (by omega)]]
    rw [show ilocIdx fps.length (i + fps.length) = Except.ok (i + fps.length).toNat by
      rw [ilocIdx, if_pos (by omega)]]

/-- C5 witness: index 5 on a one-month dataset surfaces the `IndexError`. -/
theorem c5_invalid_index_witness :
    update_graphs [[(1:ℚ)]] (some 5) =
      Except.error "IndexError: single positional indexer is out-of-bounds" :=
  c5_invalid_index_amended.1 [[(1:ℚ)]] 5 (by norm_num)
